import Mathlib

/-!
Verification of the circular log storage engine (ring buffer over a
block-erasable SPI flash device) from `src/main.cpp`.

The embedding models the engine state (`ringBufferWriteAddress`,
`ringBufferInitialized`, `ringBufferPaused`, plus the driver-level
`flashInitialized` flag) and the operations
`flashRingBufferInit` / `flashRingBufferWrite` / `flashRingBufferGetPosition` /
`flashRingBufferSetPosition` / `flashRingBufferReset` /
`flashRingBufferPause` / `flashRingBufferResume` / `flashRingBufferIsPaused`.

Device interaction is modelled as a trace of issued chip operations
(`FlashOp.eraseSector` / `FlashOp.write`); whether the n-th issued chip
operation succeeds is decided by an oracle `devOk : Nat -> Bool`, which
lets us express both the all-successful runs and mid-operation device
failures.  Serial logging, the SPI mutex and FreeRTOS task plumbing have
no effect on the engine state and are not modelled.  The geometry
constants `FLASH_SECTOR_SIZE` / `FLASH_TOTAL_SIZE` are kept as parameters
of a `Geo` structure (the source fixes B = 4096, C = 4194304 = 1024 * B;
the structure records the facts the source geometry satisfies: a positive
sector size dividing the positive total size).
-/

/-- Device geometry: sector (block) size B and total capacity C, together
with the facts satisfied by the source constants (B = 4096, C = 4194304):
B is positive, C is positive, and C is an exact multiple of B. -/
structure Geo where
  sectorSize : Nat
  totalSize : Nat
  sector_pos : 0 < sectorSize
  total_pos : 0 < totalSize
  sector_dvd : sectorSize ∣ totalSize

/-- Source constant FLASH_SECTOR_SIZE (4096 bytes, W25Q32 sector). -/
def FLASH_SECTOR_SIZE : Nat := 4096

/-- Source constant FLASH_TOTAL_SIZE (4 MB W25Q32 chip). -/
def FLASH_TOTAL_SIZE : Nat := 4194304

/-- The geometry of the real W25Q32 device used in `main.cpp`. -/
def realGeo : Geo :=
  ⟨FLASH_SECTOR_SIZE, FLASH_TOTAL_SIZE, by decide, by decide, by decide⟩

/-- The toy geometry (C = 16, B = 4) used by the scenarios in the spec. -/
def toyGeo : Geo := ⟨4, 16, by decide, by decide, by decide⟩

/-- A chip-level operation actually issued to the flash device:
a sector erase (given the raw byte address passed to `flash.eraseSector`)
or a byte-range write (start address and length). -/
inductive FlashOp where
  | eraseSector (addr : Nat)
  | write (addr : Nat) (len : Nat)
deriving DecidableEq, Repr

/-- Result of one driver-level call: success flag, the updated count of
issued chip operations, and the list of chip operations issued. -/
structure DevResult where
  ok : Bool
  nOps : Nat
  trace : List FlashOp
deriving Repr

/-- Engine state: the driver flag `flashInitialized` and the ring buffer
globals `ringBufferWriteAddress`, `ringBufferInitialized`,
`ringBufferPaused` of `main.cpp`. -/
structure EngineState where
  flashInitialized : Bool
  ringBufferWriteAddress : Nat
  ringBufferInitialized : Bool
  ringBufferPaused : Bool
deriving DecidableEq, Repr

/-- flashEraseSector (main.cpp): fails without touching the chip if the
driver is uninitialized or the address is out of bounds; otherwise issues
the sector erase, whose success is decided by the oracle at the current
operation index n. -/
def flashEraseSector (g : Geo) (devOk : Nat → Bool) (flashInit : Bool)
    (address n : Nat) : DevResult :=
  if !flashInit then ⟨false, n, []⟩
  else if g.totalSize ≤ address then ⟨false, n, []⟩
  else ⟨devOk n, n + 1, [FlashOp.eraseSector address]⟩

/-- flashWrite (main.cpp): fails without touching the chip if the driver
is uninitialized, the length is zero (the NULL-data case is subsumed: data
is modelled by its length only), or the range exceeds the capacity;
otherwise issues the write, whose success is decided by the oracle. -/
def flashWrite (g : Geo) (devOk : Nat → Bool) (flashInit : Bool)
    (address length n : Nat) : DevResult :=
  if !flashInit then ⟨false, n, []⟩
  else if length = 0 then ⟨false, n, []⟩
  else if g.totalSize < address + length then ⟨false, n, []⟩
  else ⟨devOk n, n + 1, [FlashOp.write address length]⟩

/-- Outcome of the ring buffer write loop: success flag, final value of
`ringBufferWriteAddress`, operation counter, and trace of issued chip
operations. -/
structure WriteOutcome where
  ok : Bool
  addr : Nat
  nOps : Nat
  trace : List FlashOp
deriving Repr

/-- The while loop of `flashRingBufferWrite` (main.cpp lines 566-600),
with `remaining = length - bytesWritten` and `addr` the current value of
`ringBufferWriteAddress`.  Each iteration: if the sector offset is 0 the
sector is erased first (failure aborts); then min(remaining, B - offset)
bytes are written (failure aborts); the address advances and wraps to 0
on reaching the capacity.  The fuel argument only forces structural
termination: every real iteration writes at least one byte, so fuel =
initial remaining is enough and the fuel-exhausted branch mirrors the
loop exit (it is never reached from `flashRingBufferWrite`). -/
def ringWriteLoop (g : Geo) (devOk : Nat → Bool) :
    Nat → Nat → Nat → Nat → WriteOutcome
  | 0, addr, _remaining, n => ⟨true, addr, n, []⟩
  | fuel + 1, addr, remaining, n =>
    if remaining = 0 then ⟨true, addr, n, []⟩
    else
      let sectorOffset := addr % g.sectorSize
      let er : DevResult :=
        if sectorOffset = 0 then flashEraseSector g devOk true addr n
        else ⟨true, n, []⟩
      if er.ok then
        let toWrite := min remaining (g.sectorSize - sectorOffset)
        let wr := flashWrite g devOk true addr toWrite er.nOps
        if wr.ok then
          let addr2 := addr + toWrite
          let addr3 := if g.totalSize ≤ addr2 then 0 else addr2
          let rest := ringWriteLoop g devOk fuel addr3 (remaining - toWrite) wr.nOps
          ⟨rest.ok, rest.addr, rest.nOps, er.trace ++ wr.trace ++ rest.trace⟩
        else ⟨false, addr, wr.nOps, er.trace ++ wr.trace⟩
      else ⟨false, addr, er.nOps, er.trace⟩

/-- Result of one `flashRingBufferWrite` call: returned flag, engine state
after the call, and the trace of issued chip operations. -/
structure AppendResult where
  ok : Bool
  state : EngineState
  trace : List FlashOp
deriving Repr

/-- flashRingBufferWrite (main.cpp lines 547-604): validation (driver and
ring initialized, not paused, non-empty data: data is modelled by its
length), then the erase-and-write loop starting at the current cursor.
The chip-operation counter starts at 0 for each call. -/
def flashRingBufferWrite (g : Geo) (devOk : Nat → Bool) (s : EngineState)
    (length : Nat) : AppendResult :=
  if !s.flashInitialized || !s.ringBufferInitialized then ⟨false, s, []⟩
  else if s.ringBufferPaused then ⟨false, s, []⟩
  else if length = 0 then ⟨false, s, []⟩
  else
    let r := ringWriteLoop g devOk length s.ringBufferWriteAddress length 0
    ⟨r.ok, { s with ringBufferWriteAddress := r.addr }, r.trace⟩

/-- Classification of one sector by the scan of `flashRingBufferInit`:
the sector samples as empty (erased) when every byte of its sampled first
page reads 0xFF.  `sample k` is the list of bytes the scan reads from
sector k (256 bytes in the source). -/
def sectorIsEmpty (sample : Nat → List Nat) (sector : Nat) : Bool :=
  (sample sector).all (fun b => b = 0xFF)

/-- The scan loop of `flashRingBufferInit` (main.cpp lines 491-533),
returning the computed write address.  `count` is the number of sectors
still to scan (the source iterates sectors 0 .. C/B - 1, so the loop is
entered with count = C/B and sector = 0); `foundData` and
`lastDataSector` are the scan accumulators.  When the sectors are
exhausted the fallback of lines 528-533 applies.  Reads are modelled as
succeeding (a read failure makes the source return without setting any
cursor, a case no claim is about). -/
def flashRingBufferInitLoop (g : Geo) (sample : Nat → List Nat) :
    Nat → Nat → Bool → Nat → Nat
  | 0, _sector, foundData, lastDataSector =>
    if foundData then
      ((lastDataSector + 1) % (g.totalSize / g.sectorSize)) * g.sectorSize
    else 0
  | count + 1, sector, foundData, lastDataSector =>
    let isEmpty := sectorIsEmpty sample sector
    let foundData2 := foundData || !isEmpty
    let lastDataSector2 := if isEmpty then lastDataSector else sector
    if foundData2 && isEmpty then sector * g.sectorSize
    else flashRingBufferInitLoop g sample count (sector + 1) foundData2 lastDataSector2

/-- flashRingBufferInit (main.cpp lines 477-538): fails if the driver is
uninitialized; otherwise scans the device and sets the cursor and the
initialized flag. -/
def flashRingBufferInit (g : Geo) (sample : Nat → List Nat) (s : EngineState) :
    Bool × EngineState :=
  if !s.flashInitialized then (false, s)
  else
    (true,
      { s with
        ringBufferWriteAddress :=
          flashRingBufferInitLoop g sample (g.totalSize / g.sectorSize) 0 false 0,
        ringBufferInitialized := true })

/-- flashRingBufferGetPosition (main.cpp): returns the raw cursor. -/
def flashRingBufferGetPosition (s : EngineState) : Nat :=
  s.ringBufferWriteAddress

/-- flashRingBufferSetPosition (main.cpp lines 640-654): fails if the
address is out of bounds; otherwise aligns the address down to a sector
boundary, stores it and sets the initialized flag.  No chip operation is
issued (the trace component is always empty). -/
def flashRingBufferSetPosition (g : Geo) (s : EngineState) (address : Nat) :
    Bool × EngineState × List FlashOp :=
  if g.totalSize ≤ address then (false, s, [])
  else
    (true,
      { s with
        ringBufferWriteAddress := address / g.sectorSize * g.sectorSize,
        ringBufferInitialized := true }, [])

/-- flashRingBufferReset (main.cpp lines 659-663): cursor to 0,
initialized flag set.  No chip operation is issued. -/
def flashRingBufferReset (s : EngineState) : EngineState :=
  { s with ringBufferWriteAddress := 0, ringBufferInitialized := true }

/-- flashRingBufferPause (main.cpp): sets the pause flag. -/
def flashRingBufferPause (s : EngineState) : EngineState :=
  { s with ringBufferPaused := true }

/-- flashRingBufferResume (main.cpp): clears the pause flag. -/
def flashRingBufferResume (s : EngineState) : EngineState :=
  { s with ringBufferPaused := false }

/-- flashRingBufferIsPaused (main.cpp): reads the pause flag. -/
def flashRingBufferIsPaused (s : EngineState) : Bool :=
  s.ringBufferPaused

/-- The all-successful device oracle: every issued chip operation
succeeds. -/
def devAllOk : Nat → Bool := fun _ => true

/-- Whether a chip operation is an erase of block (sector index) b. -/
def isEraseOf (g : Geo) (b : Nat) : FlashOp → Bool
  | FlashOp.eraseSector a => a / g.sectorSize == b
  | FlashOp.write _ _ => false

/-- Whether a chip operation is a write into block (sector index) b
(ring writes never cross a sector boundary, so the start address
determines the block). -/
def isWriteInto (g : Geo) (b : Nat) : FlashOp → Bool
  | FlashOp.eraseSector _ => false
  | FlashOp.write a _ => a / g.sectorSize == b

/-- Number of erases of block b in a trace. -/
def eraseCount (g : Geo) (b : Nat) : List FlashOp → Nat
  | [] => 0
  | op :: t => (if isEraseOf g b op then 1 else 0) + eraseCount g b t

/-- True when, scanning the trace in order, no write into block b occurs
before the first erase of block b (in particular true when block b is
never written).  Together with `eraseCount = 1` this says the single
erase of b precedes every write into b. -/
def erasedBeforeWritten (g : Geo) (b : Nat) : List FlashOp → Bool
  | [] => true
  | op :: t =>
    if isWriteInto g b op then false
    else if isEraseOf g b op then true
    else erasedBeforeWritten g b t

/-- The blocks the cursor "newly enters" during an append from address
`addr` of `remaining` bytes, per the claim's definition: the blocks whose
in-block offset is 0 when the write reaches them, listed in entry order.
The recursion mirrors the control flow of `ringWriteLoop` on the
successful path (fuel as in `ringWriteLoop`). -/
def enteredBlocksAux (g : Geo) : Nat → Nat → Nat → List Nat
  | 0, _addr, _remaining => []
  | fuel + 1, addr, remaining =>
    if remaining = 0 then []
    else
      let sectorOffset := addr % g.sectorSize
      let toWrite := min remaining (g.sectorSize - sectorOffset)
      let addr2 := addr + toWrite
      let addr3 := if g.totalSize ≤ addr2 then 0 else addr2
      (if sectorOffset = 0 then [addr / g.sectorSize] else []) ++
        enteredBlocksAux g fuel addr3 (remaining - toWrite)

/-- Blocks newly entered by an append of `length` bytes starting at
`addr`. -/
def enteredBlocks (g : Geo) (addr length : Nat) : List Nat :=
  enteredBlocksAux g length addr length

/-- Total number of bytes successfully written in a trace whose first
operation has index i: the sum of the lengths of the write operations at
indices the oracle accepts. -/
def succWrittenBytes (devOk : Nat → Bool) : List FlashOp → Nat → Nat
  | [], _ => 0
  | FlashOp.eraseSector _ :: t, i => succWrittenBytes devOk t (i + 1)
  | FlashOp.write _ l :: t, i =>
    (if devOk i then l else 0) + succWrittenBytes devOk t (i + 1)

/-- Folding a sequence of appends (with the all-successful oracle) over
the engine state. -/
def appendSeq (g : Geo) (s : EngineState) : List Nat → EngineState
  | [] => s
  | l :: ls => appendSeq g (flashRingBufferWrite g devAllOk s l).state ls

/-- Whether the scan classifies sector k as written (non-empty sample). -/
def sectorWritten (sample : Nat → List Nat) (k : Nat) : Bool :=
  !(sectorIsEmpty sample k)

/-- The largest sector index below n whose sample is written (0 when no
sector below n is written): the claim's "last_written_block_index" for a
scan over sectors 0 .. n-1. -/
def lastWrittenBelow (sample : Nat → List Nat) : Nat → Nat
  | 0 => 0
  | n + 1 => if sectorWritten sample n then n else lastWrittenBelow sample n

/-- Total number of sector-erase operations in a trace. -/
def eraseCalls : List FlashOp → Nat
  | [] => 0
  | FlashOp.eraseSector _ :: t => 1 + eraseCalls t
  | FlashOp.write _ _ :: t => eraseCalls t

/-- The device-failure oracle used as a witness for C6: the first two chip
operations succeed, the third fails. -/
def failAfterTwo : Nat → Bool := fun i => Nat.blt i 2

lemma Geo.blockEnd_le (g : Geo) {a : Nat} (h : a < g.totalSize) :
    a + (g.sectorSize - a % g.sectorSize) ≤ g.totalSize := by
  obtain ⟨k, hk⟩ := g.sector_dvd
  have h1 : a / g.sectorSize < k := by
    rw [Nat.div_lt_iff_lt_mul g.sector_pos, Nat.mul_comm]
    omega
  have h2 : g.sectorSize * (a / g.sectorSize + 1) ≤ g.sectorSize * k :=
    Nat.mul_le_mul_left _ h1
  have h2' : g.sectorSize * (a / g.sectorSize + 1)
      = g.sectorSize * (a / g.sectorSize) + g.sectorSize := by ring
  have h3 := Nat.div_add_mod a g.sectorSize
  have h4 := Nat.mod_lt a g.sector_pos
  omega

lemma toWrite_pos (g : Geo) {r : Nat} (hr : r ≠ 0) (off : Nat)
    (hoff : off < g.sectorSize) : min r (g.sectorSize - off) ≠ 0 := by
  have := g.sector_pos
  omega

lemma flashEraseSector_eval (g : Geo) (devOk : Nat → Bool) {a : Nat}
    (h : a < g.totalSize) (n : Nat) :
    flashEraseSector g devOk true a n = ⟨devOk n, n + 1, [FlashOp.eraseSector a]⟩ := by
  simp [flashEraseSector, Nat.not_le.mpr h]

lemma flashWrite_eval (g : Geo) (devOk : Nat → Bool) {a l : Nat}
    (hl : l ≠ 0) (h : a + l ≤ g.totalSize) (n : Nat) :
    flashWrite g devOk true a l n = ⟨devOk n, n + 1, [FlashOp.write a l]⟩ := by
  simp [flashWrite, hl, Nat.not_lt.mpr h]

lemma ringWriteLoop_entry_ok (g : Geo) (devOk : Nat → Bool) {fuel a r n w a3 : Nat}
    (ha : a < g.totalSize) (hr : r ≠ 0) (hoff : a % g.sectorSize = 0)
    (h1 : devOk n = true) (h2 : devOk (n + 1) = true)
    (hw : w = min r g.sectorSize)
    (ha3 : a3 = if g.totalSize ≤ a + w then 0 else a + w) :
    ringWriteLoop g devOk (fuel + 1) a r n =
      ⟨(ringWriteLoop g devOk fuel a3 (r - w) (n + 2)).ok,
       (ringWriteLoop g devOk fuel a3 (r - w) (n + 2)).addr,
       (ringWriteLoop g devOk fuel a3 (r - w) (n + 2)).nOps,
       FlashOp.eraseSector a :: FlashOp.write a w ::
         (ringWriteLoop g devOk fuel a3 (r - w) (n + 2)).trace⟩ := by
  have hB := g.sector_pos
  have hwne : w ≠ 0 := by omega
  have hble : a + w ≤ g.totalSize := by
    have h5 := g.blockEnd_le ha
    omega
  simp [ringWriteLoop, hr, hoff, flashEraseSector_eval g devOk ha n, h1,
    ← hw, flashWrite_eval g devOk hwne hble (n + 1), h2, ← ha3]

lemma ringWriteLoop_entry_eraseFail (g : Geo) (devOk : Nat → Bool) {fuel a r n : Nat}
    (ha : a < g.totalSize) (hr : r ≠ 0) (hoff : a % g.sectorSize = 0)
    (h1 : devOk n = false) :
    ringWriteLoop g devOk (fuel + 1) a r n = ⟨false, a, n + 1, [FlashOp.eraseSector a]⟩ := by
  simp [ringWriteLoop, hr, hoff, flashEraseSector_eval g devOk ha n, h1]

lemma ringWriteLoop_entry_writeFail (g : Geo) (devOk : Nat → Bool) {fuel a r n w : Nat}
    (ha : a < g.totalSize) (hr : r ≠ 0) (hoff : a % g.sectorSize = 0)
    (h1 : devOk n = true) (h2 : devOk (n + 1) = false)
    (hw : w = min r g.sectorSize) :
    ringWriteLoop g devOk (fuel + 1) a r n =
      ⟨false, a, n + 2, [FlashOp.eraseSector a, FlashOp.write a w]⟩ := by
  have hB := g.sector_pos
  have hwne : w ≠ 0 := by omega
  have hble : a + w ≤ g.totalSize := by
    have h5 := g.blockEnd_le ha
    omega
  simp [ringWriteLoop, hr, hoff, flashEraseSector_eval g devOk ha n, h1,
    ← hw, flashWrite_eval g devOk hwne hble (n + 1), h2]

lemma ringWriteLoop_mid_ok (g : Geo) (devOk : Nat → Bool) {fuel a r n w a3 : Nat}
    (ha : a < g.totalSize) (hr : r ≠ 0) (hoff : a % g.sectorSize ≠ 0)
    (h1 : devOk n = true)
    (hw : w = min r (g.sectorSize - a % g.sectorSize))
    (ha3 : a3 = if g.totalSize ≤ a + w then 0 else a + w) :
    ringWriteLoop g devOk (fuel + 1) a r n =
      ⟨(ringWriteLoop g devOk fuel a3 (r - w) (n + 1)).ok,
       (ringWriteLoop g devOk fuel a3 (r - w) (n + 1)).addr,
       (ringWriteLoop g devOk fuel a3 (r - w) (n + 1)).nOps,
       FlashOp.write a w :: (ringWriteLoop g devOk fuel a3 (r - w) (n + 1)).trace⟩ := by
  have hmod := Nat.mod_lt a g.sector_pos
  have hwne : w ≠ 0 := by omega
  have hble : a + w ≤ g.totalSize := by
    have h5 := g.blockEnd_le ha
    omega
  simp [ringWriteLoop, hr, hoff, ← hw, flashWrite_eval g devOk hwne hble n, h1, ← ha3]

lemma ringWriteLoop_mid_writeFail (g : Geo) (devOk : Nat → Bool) {fuel a r n w : Nat}
    (ha : a < g.totalSize) (hr : r ≠ 0) (hoff : a % g.sectorSize ≠ 0)
    (h1 : devOk n = false)
    (hw : w = min r (g.sectorSize - a % g.sectorSize)) :
    ringWriteLoop g devOk (fuel + 1) a r n = ⟨false, a, n + 1, [FlashOp.write a w]⟩ := by
  have hmod := Nat.mod_lt a g.sector_pos
  have hwne : w ≠ 0 := by omega
  have hble : a + w ≤ g.totalSize := by
    have h5 := g.blockEnd_le ha
    omega
  simp [ringWriteLoop, hr, hoff, ← hw, flashWrite_eval g devOk hwne hble n, h1]

lemma succWrittenBytes_erase_cons (devOk : Nat → Bool) (q : Nat) (t : List FlashOp) (i : Nat) :
    succWrittenBytes devOk (FlashOp.eraseSector q :: t) i = succWrittenBytes devOk t (i + 1) := rfl

lemma succWrittenBytes_write_cons_ok (devOk : Nat → Bool) {i : Nat} (h : devOk i = true)
    (q l : Nat) (t : List FlashOp) :
    succWrittenBytes devOk (FlashOp.write q l :: t) i = l + succWrittenBytes devOk t (i + 1) := by
  simp [succWrittenBytes, h]

lemma succWrittenBytes_write_cons_fail (devOk : Nat → Bool) {i : Nat} (h : devOk i = false)
    (q l : Nat) (t : List FlashOp) :
    succWrittenBytes devOk (FlashOp.write q l :: t) i = succWrittenBytes devOk t (i + 1) := by
  simp [succWrittenBytes, h]

lemma ringWriteLoop_addr (g : Geo) (devOk : Nat → Bool) :
    ∀ (fuel a r n : Nat), a < g.totalSize →
      (ringWriteLoop g devOk fuel a r n).addr
        = (a + succWrittenBytes devOk (ringWriteLoop g devOk fuel a r n).trace n)
            % g.totalSize
      ∧ (ringWriteLoop g devOk fuel a r n).nOps
        = n + (ringWriteLoop g devOk fuel a r n).trace.length := by
  intro fuel
  induction fuel with
  | zero =>
    intro a r n ha
    simp [ringWriteLoop, succWrittenBytes, Nat.mod_eq_of_lt ha]
  | succ fuel ih =>
    intro a r n ha
    by_cases hr : r = 0
    · subst hr
      simp [ringWriteLoop, succWrittenBytes, Nat.mod_eq_of_lt ha]
    · have hB := g.sector_pos
      have hend := g.blockEnd_le ha
      have hmod := Nat.mod_lt a g.sector_pos
      by_cases hoff : a % g.sectorSize = 0
      · have hble : a + min r g.sectorSize ≤ g.totalSize := by omega
        cases h1 : devOk n with
        | false =>
          rw [ringWriteLoop_entry_eraseFail g devOk ha hr hoff h1]
          simp [succWrittenBytes, Nat.mod_eq_of_lt ha]
        | true =>
          cases h2 : devOk (n + 1) with
          | false =>
            rw [ringWriteLoop_entry_writeFail g devOk ha hr hoff h1 h2 rfl,
              succWrittenBytes_erase_cons, succWrittenBytes_write_cons_fail devOk h2]
            simp [succWrittenBytes, Nat.mod_eq_of_lt ha]
          | true =>
            rw [ringWriteLoop_entry_ok g devOk ha hr hoff h1 h2 rfl rfl]
            have ha3 : (if g.totalSize ≤ a + min r g.sectorSize then 0
                else a + min r g.sectorSize) < g.totalSize := by
              split <;> omega
            obtain ⟨ih1, ih2⟩ := ih _ (r - min r g.sectorSize) (n + 2) ha3
            rw [succWrittenBytes_erase_cons, succWrittenBytes_write_cons_ok devOk h2,
              show n + 1 + 1 = n + 2 from rfl]
            constructor
            · rw [ih1]
              split
              · next hwrap =>
                rw [Nat.zero_add, show a + (min r g.sectorSize
                    + succWrittenBytes devOk
                      (ringWriteLoop g devOk fuel 0 (r - min r g.sectorSize) (n + 2)).trace
                      (n + 2)) = g.totalSize + succWrittenBytes devOk
                      (ringWriteLoop g devOk fuel 0 (r - min r g.sectorSize) (n + 2)).trace
                      (n + 2) by omega, Nat.add_mod_left]
              · next hnw =>
                rw [Nat.add_assoc]
            · simp only [List.length_cons]
              omega
      · have hble : a + min r (g.sectorSize - a % g.sectorSize) ≤ g.totalSize := by
          omega
        cases h1 : devOk n with
        | false =>
          rw [ringWriteLoop_mid_writeFail g devOk ha hr hoff h1 rfl,
            succWrittenBytes_write_cons_fail devOk h1]
          simp [succWrittenBytes, Nat.mod_eq_of_lt ha]
        | true =>
          rw [ringWriteLoop_mid_ok g devOk ha hr hoff h1 rfl rfl]
          have ha3 : (if g.totalSize ≤ a + min r (g.sectorSize - a % g.sectorSize) then 0
              else a + min r (g.sectorSize - a % g.sectorSize)) < g.totalSize := by
            split <;> omega
          obtain ⟨ih1, ih2⟩ := ih _ (r - min r (g.sectorSize - a % g.sectorSize)) (n + 1) ha3
          rw [succWrittenBytes_write_cons_ok devOk h1]
          constructor
          · rw [ih1]
            split
            · next hwrap =>
              rw [Nat.zero_add, show a + (min r (g.sectorSize - a % g.sectorSize)
                  + succWrittenBytes devOk
                    (ringWriteLoop g devOk fuel 0
                      (r - min r (g.sectorSize - a % g.sectorSize)) (n + 1)).trace
                    (n + 1)) = g.totalSize + succWrittenBytes devOk
                    (ringWriteLoop g devOk fuel 0
                      (r - min r (g.sectorSize - a % g.sectorSize)) (n + 1)).trace
                    (n + 1) by omega, Nat.add_mod_left]
            · next hnw =>
              rw [Nat.add_assoc]
          · simp only [List.length_cons]
            omega

lemma devAllOk_eq (n : Nat) : devAllOk n = true := rfl

lemma ringWriteLoop_allOk (g : Geo) :
    ∀ (fuel a r n : Nat), r ≤ fuel → a < g.totalSize →
      (ringWriteLoop g devAllOk fuel a r n).ok = true
      ∧ (ringWriteLoop g devAllOk fuel a r n).addr = (a + r) % g.totalSize := by
  intro fuel
  induction fuel with
  | zero =>
    intro a r n hf ha
    have hr : r = 0 := by omega
    subst hr
    simp [ringWriteLoop, Nat.mod_eq_of_lt ha]
  | succ fuel ih =>
    intro a r n hf ha
    by_cases hr : r = 0
    · subst hr
      simp [ringWriteLoop, Nat.mod_eq_of_lt ha]
    · have hB := g.sector_pos
      have hend := g.blockEnd_le ha
      have hmod := Nat.mod_lt a g.sector_pos
      by_cases hoff : a % g.sectorSize = 0
      · rw [ringWriteLoop_entry_ok g devAllOk ha hr hoff (devAllOk_eq n)
          (devAllOk_eq (n + 1)) rfl rfl]
        have hw1 : 1 ≤ min r g.sectorSize := by omega
        have hw2 : min r g.sectorSize ≤ r := by omega
        have hble : a + min r g.sectorSize ≤ g.totalSize := by omega
        have ha3 : (if g.totalSize ≤ a + min r g.sectorSize then 0
            else a + min r g.sectorSize) < g.totalSize := by
          split <;> omega
        obtain ⟨ih1, ih2⟩ := ih _ (r - min r g.sectorSize) (n + 2) (by omega) ha3
        refine ⟨ih1, ?_⟩
        rw [ih2]
        split
        · next hwrap =>
          rw [Nat.zero_add, show a + r = g.totalSize + (r - min r g.sectorSize) by omega,
            Nat.add_mod_left]
        · next hnw =>
          rw [show a + min r g.sectorSize + (r - min r g.sectorSize) = a + r by omega]
      · rw [ringWriteLoop_mid_ok g devAllOk ha hr hoff (devAllOk_eq n) rfl rfl]
        have hw1 : 1 ≤ min r (g.sectorSize - a % g.sectorSize) := by omega
        have hw2 : min r (g.sectorSize - a % g.sectorSize) ≤ r := by omega
        have hble : a + min r (g.sectorSize - a % g.sectorSize) ≤ g.totalSize := by omega
        have ha3 : (if g.totalSize ≤ a + min r (g.sectorSize - a % g.sectorSize) then 0
            else a + min r (g.sectorSize - a % g.sectorSize)) < g.totalSize := by
          split <;> omega
        obtain ⟨ih1, ih2⟩ := ih _ (r - min r (g.sectorSize - a % g.sectorSize)) (n + 1)
          (by omega) ha3
        refine ⟨ih1, ?_⟩
        rw [ih2]
        split
        · next hwrap =>
          rw [Nat.zero_add, show a + r
            = g.totalSize + (r - min r (g.sectorSize - a % g.sectorSize)) by omega,
            Nat.add_mod_left]
        · next hnw =>
          rw [show a + min r (g.sectorSize - a % g.sectorSize)
            + (r - min r (g.sectorSize - a % g.sectorSize)) = a + r by omega]

lemma blockEnd_mod (g : Geo) (a : Nat) :
    (a + (g.sectorSize - a % g.sectorSize)) % g.sectorSize = 0 := by
  have h1 := Nat.div_add_mod' a g.sectorSize
  have h3 := Nat.mod_lt a g.sector_pos
  have h2 : a + (g.sectorSize - a % g.sectorSize)
      = (a / g.sectorSize + 1) * g.sectorSize := by
    have h4 : (a / g.sectorSize + 1) * g.sectorSize
        = a / g.sectorSize * g.sectorSize + g.sectorSize := by ring
    omega
  rw [h2, Nat.mul_mod_left]

lemma aligned_same_block (g : Geo) {q a : Nat} (hq : q % g.sectorSize = 0)
    (ha : a % g.sectorSize = 0) (h : q / g.sectorSize = a / g.sectorSize) : q = a := by
  have h1 := Nat.div_add_mod q g.sectorSize
  have h2 := Nat.div_add_mod a g.sectorSize
  rw [h] at h1
  omega

lemma eraseCount_cons (g : Geo) (b : Nat) (op : FlashOp) (t : List FlashOp) :
    eraseCount g b (op :: t) = (if isEraseOf g b op then 1 else 0) + eraseCount g b t := rfl

lemma isEraseOf_erase (g : Geo) (b q : Nat) :
    isEraseOf g b (FlashOp.eraseSector q) = (q / g.sectorSize == b) := rfl

lemma isEraseOf_write (g : Geo) (b q l : Nat) :
    isEraseOf g b (FlashOp.write q l) = false := rfl

lemma isWriteInto_erase (g : Geo) (b q : Nat) :
    isWriteInto g b (FlashOp.eraseSector q) = false := rfl

lemma isWriteInto_write (g : Geo) (b q l : Nat) :
    isWriteInto g b (FlashOp.write q l) = (q / g.sectorSize == b) := rfl

lemma erasedBeforeWritten_cons (g : Geo) (b : Nat) (op : FlashOp) (t : List FlashOp) :
    erasedBeforeWritten g b (op :: t)
      = if isWriteInto g b op then false
        else if isEraseOf g b op then true
        else erasedBeforeWritten g b t := rfl

lemma eraseCount_eq_zero (g : Geo) (b : Nat) :
    ∀ t : List FlashOp, (∀ q, FlashOp.eraseSector q ∈ t → q / g.sectorSize ≠ b) →
      eraseCount g b t = 0 := by
  intro t
  induction t with
  | nil => intro _; rfl
  | cons op t iht =>
    intro h
    rw [eraseCount_cons]
    have ht : eraseCount g b t = 0 :=
      iht (fun q hq => h q (List.mem_cons_of_mem _ hq))
    cases op with
    | eraseSector q =>
      have : q / g.sectorSize ≠ b := h q (List.mem_cons_self _ _)
      simp [isEraseOf_erase, this, ht]
    | write q l =>
      simp [isEraseOf_write, ht]

lemma enteredBlocksAux_zero (g : Geo) : ∀ fuel a, enteredBlocksAux g fuel a 0 = [] := by
  intro fuel a
  cases fuel <;> simp [enteredBlocksAux]

lemma ringWriteLoop_window (g : Geo) :
    ∀ (fuel a r n : Nat), a < g.totalSize →
      (∀ q, FlashOp.eraseSector q ∈ (ringWriteLoop g devAllOk fuel a r n).trace →
        q % g.sectorSize = 0
        ∧ ((a ≤ q ∧ q < a + r) ∨ q + g.totalSize < a + r)) ∧
      (∀ q l, FlashOp.write q l ∈ (ringWriteLoop g devAllOk fuel a r n).trace →
        ((a ≤ q ∧ q < a + r) ∨ q + g.totalSize < a + r)) := by
  intro fuel
  induction fuel with
  | zero =>
    intro a r n ha
    simp [ringWriteLoop]
  | succ fuel ih =>
    intro a r n ha
    by_cases hr : r = 0
    · subst hr
      simp [ringWriteLoop]
    · have hB := g.sector_pos
      have hend := g.blockEnd_le ha
      have hmod := Nat.mod_lt a g.sector_pos
      by_cases hoff : a % g.sectorSize = 0
      · have hw1 : 1 ≤ min r g.sectorSize := by omega
        have hw2 : min r g.sectorSize ≤ r := by omega
        have hble : a + min r g.sectorSize ≤ g.totalSize := by omega
        by_cases hwrap : g.totalSize ≤ a + min r g.sectorSize
        · rw [ringWriteLoop_entry_ok g devAllOk ha hr hoff (devAllOk_eq n)
            (devAllOk_eq (n + 1)) rfl (by rw [if_pos hwrap])]
          obtain ⟨ihE, ihW⟩ := ih 0 (r - min r g.sectorSize) (n + 2) (by omega)
          constructor
          · intro q hq
            rcases List.mem_cons.mp hq with heq | hq2
            · injection heq with h'
              subst h'
              exact ⟨hoff, Or.inl ⟨Nat.le_refl _, by omega⟩⟩
            · rcases List.mem_cons.mp hq2 with heq | hq3
              · simp at heq
              · obtain ⟨hal, hwin⟩ := ihE q hq3
                exact ⟨hal, by omega⟩
          · intro q l hq
            rcases List.mem_cons.mp hq with heq | hq2
            · simp at heq
            · rcases List.mem_cons.mp hq2 with heq | hq3
              · injection heq with h' h''
                subst h'
                exact Or.inl ⟨Nat.le_refl _, by omega⟩
              · have hwin := ihW q l hq3
                omega
        · rw [ringWriteLoop_entry_ok g devAllOk ha hr hoff (devAllOk_eq n)
            (devAllOk_eq (n + 1)) rfl (by rw [if_neg hwrap])]
          obtain ⟨ihE, ihW⟩ := ih (a + min r g.sectorSize) (r - min r g.sectorSize)
            (n + 2) (by omega)
          constructor
          · intro q hq
            rcases List.mem_cons.mp hq with heq | hq2
            · injection heq with h'
              subst h'
              exact ⟨hoff, Or.inl ⟨Nat.le_refl _, by omega⟩⟩
            · rcases List.mem_cons.mp hq2 with heq | hq3
              · simp at heq
              · obtain ⟨hal, hwin⟩ := ihE q hq3
                exact ⟨hal, by omega⟩
          · intro q l hq
            rcases List.mem_cons.mp hq with heq | hq2
            · simp at heq
            · rcases List.mem_cons.mp hq2 with heq | hq3
              · injection heq with h' h''
                subst h'
                exact Or.inl ⟨Nat.le_refl _, by omega⟩
              · have hwin := ihW q l hq3
                omega
      · have hw1 : 1 ≤ min r (g.sectorSize - a % g.sectorSize) := by omega
        have hw2 : min r (g.sectorSize - a % g.sectorSize) ≤ r := by omega
        have hble : a + min r (g.sectorSize - a % g.sectorSize) ≤ g.totalSize := by omega
        by_cases hwrap : g.totalSize ≤ a + min r (g.sectorSize - a % g.sectorSize)
        · rw [ringWriteLoop_mid_ok g devAllOk ha hr hoff (devAllOk_eq n) rfl
            (by rw [if_pos hwrap])]
          obtain ⟨ihE, ihW⟩ := ih 0 (r - min r (g.sectorSize - a % g.sectorSize))
            (n + 1) (by omega)
          constructor
          · intro q hq
            rcases List.mem_cons.mp hq with heq | hq2
            · simp at heq
            · obtain ⟨hal, hwin⟩ := ihE q hq2
              exact ⟨hal, by omega⟩
          · intro q l hq
            rcases List.mem_cons.mp hq with heq | hq2
            · injection heq with h' h''
              subst h'
              exact Or.inl ⟨Nat.le_refl _, by omega⟩
            · have hwin := ihW q l hq2
              omega
        · rw [ringWriteLoop_mid_ok g devAllOk ha hr hoff (devAllOk_eq n) rfl
            (by rw [if_neg hwrap])]
          obtain ⟨ihE, ihW⟩ := ih (a + min r (g.sectorSize - a % g.sectorSize))
            (r - min r (g.sectorSize - a % g.sectorSize)) (n + 1) (by omega)
          constructor
          · intro q hq
            rcases List.mem_cons.mp hq with heq | hq2
            · simp at heq
            · obtain ⟨hal, hwin⟩ := ihE q hq2
              exact ⟨hal, by omega⟩
          · intro q l hq
            rcases List.mem_cons.mp hq with heq | hq2
            · injection heq with h' h''
              subst h'
              exact Or.inl ⟨Nat.le_refl _, by omega⟩
            · have hwin := ihW q l hq2
              omega

lemma enteredBlocksAux_succ (g : Geo) (fuel a r : Nat) (hr : r ≠ 0) :
    enteredBlocksAux g (fuel + 1) a r
      = (if a % g.sectorSize = 0 then [a / g.sectorSize] else []) ++
        enteredBlocksAux g fuel
          (if g.totalSize ≤ a + min r (g.sectorSize - a % g.sectorSize) then 0
           else a + min r (g.sectorSize - a % g.sectorSize))
          (r - min r (g.sectorSize - a % g.sectorSize)) := by
  simp [enteredBlocksAux, hr]

lemma enteredBlocksAux_window (g : Geo) :
    ∀ (fuel a r : Nat), a < g.totalSize →
      ∀ b ∈ enteredBlocksAux g fuel a r,
        (a ≤ b * g.sectorSize ∧ b * g.sectorSize < a + r)
        ∨ b * g.sectorSize + g.totalSize < a + r := by
  intro fuel
  induction fuel with
  | zero =>
    intro a r ha
    simp [enteredBlocksAux]
  | succ fuel ih =>
    intro a r ha b hb
    by_cases hr : r = 0
    · subst hr
      simp [enteredBlocksAux] at hb
    · have hB := g.sector_pos
      have hend := g.blockEnd_le ha
      have hmod := Nat.mod_lt a g.sector_pos
      have hw1 : 1 ≤ min r (g.sectorSize - a % g.sectorSize) := by omega
      have hw2 : min r (g.sectorSize - a % g.sectorSize) ≤ r := by omega
      have hble : a + min r (g.sectorSize - a % g.sectorSize) ≤ g.totalSize := by omega
      rw [enteredBlocksAux_succ g fuel a r hr] at hb
      rcases List.mem_append.mp hb with hb1 | hb2
      · by_cases hoff : a % g.sectorSize = 0
        · rw [if_pos hoff] at hb1
          have hbv : b = a / g.sectorSize := by
            simpa using hb1
          subst hbv
          have hcancel : a / g.sectorSize * g.sectorSize = a :=
            Nat.div_mul_cancel (Nat.dvd_of_mod_eq_zero hoff)
          exact Or.inl ⟨by omega, by omega⟩
        · rw [if_neg hoff] at hb1
          simp at hb1
      · by_cases hwrap : g.totalSize ≤ a + min r (g.sectorSize - a % g.sectorSize)
        · rw [if_pos hwrap] at hb2
          have hwin := ih 0 (r - min r (g.sectorSize - a % g.sectorSize))
            (by omega) b hb2
          omega
        · rw [if_neg hwrap] at hb2
          have hwin := ih (a + min r (g.sectorSize - a % g.sectorSize))
            (r - min r (g.sectorSize - a % g.sectorSize)) (by omega) b hb2
          omega

lemma ringWriteLoop_entered (g : Geo) :
    ∀ (fuel a r n : Nat), a < g.totalSize →
      r ≤ g.totalSize - a % g.sectorSize →
      ∀ b ∈ enteredBlocksAux g fuel a r,
        eraseCount g b (ringWriteLoop g devAllOk fuel a r n).trace = 1
        ∧ erasedBeforeWritten g b (ringWriteLoop g devAllOk fuel a r n).trace = true := by
  intro fuel
  induction fuel with
  | zero =>
    intro a r n ha hinv b hb
    simp [enteredBlocksAux] at hb
  | succ fuel ih =>
    intro a r n ha hinv b hb
    by_cases hr : r = 0
    · subst hr
      simp [enteredBlocksAux] at hb
    · have hB := g.sector_pos
      have hend := g.blockEnd_le ha
      have hmod := Nat.mod_lt a g.sector_pos
      have hw1 : 1 ≤ min r (g.sectorSize - a % g.sectorSize) := by omega
      have hw2 : min r (g.sectorSize - a % g.sectorSize) ≤ r := by omega
      have hble : a + min r (g.sectorSize - a % g.sectorSize) ≤ g.totalSize := by omega
      rw [enteredBlocksAux_succ g fuel a r hr] at hb
      by_cases hoff : a % g.sectorSize = 0
      · -- cursor at a sector boundary: the head of the trace is an erase of a
        have hwform : min r (g.sectorSize - a % g.sectorSize) = min r g.sectorSize := by
          rw [hoff, Nat.sub_zero]
        rw [if_pos hoff] at hb
        by_cases hwrap : g.totalSize ≤ a + min r (g.sectorSize - a % g.sectorSize)
        · rw [ringWriteLoop_entry_ok g devAllOk ha hr hoff (devAllOk_eq n)
            (devAllOk_eq (n + 1)) hwform (by rw [if_pos hwrap])]
          rw [if_pos hwrap] at hb
          have hA3 : (0 : Nat) < g.totalSize := g.total_pos
          rcases List.mem_append.mp hb with hb1 | hb2
          · have hbv : b = a / g.sectorSize := by simpa using hb1
            subst hbv
            constructor
            · rw [eraseCount_cons, eraseCount_cons]
              have hz : eraseCount g (a / g.sectorSize)
                  (ringWriteLoop g devAllOk fuel 0
                    (r - min r (g.sectorSize - a % g.sectorSize)) (n + 2)).trace = 0 := by
                apply eraseCount_eq_zero
                intro q hq hdq
                obtain ⟨hal, hwin⟩ := (ringWriteLoop_window g fuel 0
                  (r - min r (g.sectorSize - a % g.sectorSize)) (n + 2) hA3).1 q hq
                have hqa : q = a := aligned_same_block g hal hoff hdq
                subst hqa
                omega
              simp [isEraseOf_erase, isEraseOf_write, hz]
            · simp [erasedBeforeWritten_cons, isWriteInto_erase, isEraseOf_erase]
          · have hz : r - min r (g.sectorSize - a % g.sectorSize) ≠ 0 := by
              intro h0
              rw [h0] at hb2
              simp [enteredBlocksAux_zero] at hb2
            have hbne : a / g.sectorSize ≠ b := by
              intro he
              have hwin := enteredBlocksAux_window g fuel 0
                (r - min r (g.sectorSize - a % g.sectorSize)) hA3 b hb2
              have hcancel : a / g.sectorSize * g.sectorSize = a :=
                Nat.div_mul_cancel (Nat.dvd_of_mod_eq_zero hoff)
              rw [← he] at hwin
              omega
            have hinv2 : r - min r (g.sectorSize - a % g.sectorSize)
                ≤ g.totalSize - (0 : Nat) % g.sectorSize := by
              simp only [Nat.zero_mod, Nat.sub_zero]
              omega
            obtain ⟨ihc, ihe⟩ := ih 0 (r - min r (g.sectorSize - a % g.sectorSize))
              (n + 2) hA3 hinv2 b hb2
            have hbeq : (a / g.sectorSize == b) = false := by simp [hbne]
            constructor
            · rw [eraseCount_cons, eraseCount_cons]
              simp [isEraseOf_erase, isEraseOf_write, hbeq, ihc]
            · rw [erasedBeforeWritten_cons, erasedBeforeWritten_cons]
              simp [isWriteInto_erase, isWriteInto_write, isEraseOf_erase,
                isEraseOf_write, hbeq, ihe]
        · rw [ringWriteLoop_entry_ok g devAllOk ha hr hoff (devAllOk_eq n)
            (devAllOk_eq (n + 1)) hwform (by rw [if_neg hwrap])]
          rw [if_neg hwrap] at hb
          have hA3 : a + min r (g.sectorSize - a % g.sectorSize) < g.totalSize := by
            omega
          rcases List.mem_append.mp hb with hb1 | hb2
          · have hbv : b = a / g.sectorSize := by simpa using hb1
            subst hbv
            constructor
            · rw [eraseCount_cons, eraseCount_cons]
              have hz : eraseCount g (a / g.sectorSize)
                  (ringWriteLoop g devAllOk fuel
                    (a + min r (g.sectorSize - a % g.sectorSize))
                    (r - min r (g.sectorSize - a % g.sectorSize)) (n + 2)).trace = 0 := by
                apply eraseCount_eq_zero
                intro q hq hdq
                obtain ⟨hal, hwin⟩ := (ringWriteLoop_window g fuel
                  (a + min r (g.sectorSize - a % g.sectorSize))
                  (r - min r (g.sectorSize - a % g.sectorSize)) (n + 2) hA3).1 q hq
                have hqa : q = a := aligned_same_block g hal hoff hdq
                subst hqa
                omega
              simp [isEraseOf_erase, isEraseOf_write, hz]
            · simp [erasedBeforeWritten_cons, isWriteInto_erase, isEraseOf_erase]
          · have hz : r - min r (g.sectorSize - a % g.sectorSize) ≠ 0 := by
              intro h0
              rw [h0] at hb2
              simp [enteredBlocksAux_zero] at hb2
            have hwB : min r (g.sectorSize - a % g.sectorSize)
                = g.sectorSize - a % g.sectorSize := by omega
            have hbne : a / g.sectorSize ≠ b := by
              intro he
              have hwin := enteredBlocksAux_window g fuel
                (a + min r (g.sectorSize - a % g.sectorSize))
                (r - min r (g.sectorSize - a % g.sectorSize)) hA3 b hb2
              have hcancel : a / g.sectorSize * g.sectorSize = a :=
                Nat.div_mul_cancel (Nat.dvd_of_mod_eq_zero hoff)
              rw [← he] at hwin
              omega
            have hmod3 : (a + min r (g.sectorSize - a % g.sectorSize)) % g.sectorSize
                = 0 := by
              rw [hwB]
              exact blockEnd_mod g a
            have hinv2 : r - min r (g.sectorSize - a % g.sectorSize)
                ≤ g.totalSize
                  - (a + min r (g.sectorSize - a % g.sectorSize)) % g.sectorSize := by
              rw [hmod3]
              omega
            obtain ⟨ihc, ihe⟩ := ih (a + min r (g.sectorSize - a % g.sectorSize))
              (r - min r (g.sectorSize - a % g.sectorSize)) (n + 2) hA3 hinv2 b hb2
            have hbeq : (a / g.sectorSize == b) = false := by simp [hbne]
            constructor
            · rw [eraseCount_cons, eraseCount_cons]
              simp [isEraseOf_erase, isEraseOf_write, hbeq, ihc]
            · rw [erasedBeforeWritten_cons, erasedBeforeWritten_cons]
              simp [isWriteInto_erase, isWriteInto_write, isEraseOf_erase,
                isEraseOf_write, hbeq, ihe]
      · -- cursor strictly inside a sector: the head of the trace is a write
        rw [if_neg hoff, List.nil_append] at hb
        have hz : r - min r (g.sectorSize - a % g.sectorSize) ≠ 0 := by
          intro h0
          rw [h0] at hb
          simp [enteredBlocksAux_zero] at hb
        have hwB : min r (g.sectorSize - a % g.sectorSize)
            = g.sectorSize - a % g.sectorSize := by omega
        have hdm := Nat.div_add_mod' a g.sectorSize
        by_cases hwrap : g.totalSize ≤ a + min r (g.sectorSize - a % g.sectorSize)
        · rw [ringWriteLoop_mid_ok g devAllOk ha hr hoff (devAllOk_eq n) rfl
            (by rw [if_pos hwrap])]
          rw [if_pos hwrap] at hb
          have hA3 : (0 : Nat) < g.totalSize := g.total_pos
          have hbne : a / g.sectorSize ≠ b := by
            intro he
            have hwin := enteredBlocksAux_window g fuel 0
              (r - min r (g.sectorSize - a % g.sectorSize)) hA3 b hb
            rw [← he] at hwin
            omega
          have hinv2 : r - min r (g.sectorSize - a % g.sectorSize)
              ≤ g.totalSize - (0 : Nat) % g.sectorSize := by
            simp only [Nat.zero_mod, Nat.sub_zero]
            omega
          obtain ⟨ihc, ihe⟩ := ih 0 (r - min r (g.sectorSize - a % g.sectorSize))
            (n + 1) hA3 hinv2 b hb
          have hbeq : (a / g.sectorSize == b) = false := by simp [hbne]
          constructor
          · rw [eraseCount_cons]
            simp [isEraseOf_write, ihc]
          · rw [erasedBeforeWritten_cons]
            simp [isWriteInto_write, isEraseOf_write, hbeq, ihe]
        · rw [ringWriteLoop_mid_ok g devAllOk ha hr hoff (devAllOk_eq n) rfl
            (by rw [if_neg hwrap])]
          rw [if_neg hwrap] at hb
          have hA3 : a + min r (g.sectorSize - a % g.sectorSize) < g.totalSize := by
            omega
          have hbne : a / g.sectorSize ≠ b := by
            intro he
            have hwin := enteredBlocksAux_window g fuel
              (a + min r (g.sectorSize - a % g.sectorSize))
              (r - min r (g.sectorSize - a % g.sectorSize)) hA3 b hb
            rw [← he] at hwin
            omega
          have hmod3 : (a + min r (g.sectorSize - a % g.sectorSize)) % g.sectorSize
              = 0 := by
            rw [hwB]
            exact blockEnd_mod g a
          have hinv2 : r - min r (g.sectorSize - a % g.sectorSize)
              ≤ g.totalSize
                - (a + min r (g.sectorSize - a % g.sectorSize)) % g.sectorSize := by
            rw [hmod3]
            omega
          obtain ⟨ihc, ihe⟩ := ih (a + min r (g.sectorSize - a % g.sectorSize))
            (r - min r (g.sectorSize - a % g.sectorSize)) (n + 1) hA3 hinv2 b hb
          have hbeq : (a / g.sectorSize == b) = false := by simp [hbne]
          constructor
          · rw [eraseCount_cons]
            simp [isEraseOf_write, ihc]
          · rw [erasedBeforeWritten_cons]
            simp [isWriteInto_write, isEraseOf_write, hbeq, ihe]

lemma numSectors_pos (g : Geo) : 0 < g.totalSize / g.sectorSize :=
  Nat.div_pos (Nat.le_of_dvd g.total_pos g.sector_dvd) g.sector_pos

lemma mul_sector_lt (g : Geo) {k : Nat} (h : k < g.totalSize / g.sectorSize) :
    k * g.sectorSize < g.totalSize := by
  have hB := g.sector_pos
  have hBC : g.sectorSize ≤ g.totalSize := Nat.le_of_dvd g.total_pos g.sector_dvd
  have h4 : g.totalSize / g.sectorSize * g.sectorSize = g.totalSize :=
    Nat.div_mul_cancel g.sector_dvd
  have h2 : k * g.sectorSize ≤ (g.totalSize / g.sectorSize - 1) * g.sectorSize :=
    Nat.mul_le_mul_right _ (by omega)
  have h3 : (g.totalSize / g.sectorSize - 1) * g.sectorSize
      = g.totalSize / g.sectorSize * g.sectorSize - g.sectorSize := by
    rw [Nat.sub_mul, one_mul]
  omega

lemma flashRingBufferInitLoop_dvd (g : Geo) (sample : Nat → List Nat) :
    ∀ count sector fd ld,
      g.sectorSize ∣ flashRingBufferInitLoop g sample count sector fd ld := by
  intro count
  induction count with
  | zero =>
    intro sector fd ld
    cases fd <;> simp [flashRingBufferInitLoop]
  | succ count ihc =>
    intro sector fd ld
    rw [flashRingBufferInitLoop]
    split
    · exact Dvd.intro_left _ rfl
    · exact ihc _ _ _

lemma flashRingBufferInitLoop_lt (g : Geo) (sample : Nat → List Nat) :
    ∀ count sector fd ld, sector + count ≤ g.totalSize / g.sectorSize →
      flashRingBufferInitLoop g sample count sector fd ld < g.totalSize := by
  intro count
  induction count with
  | zero =>
    intro sector fd ld hcnt
    cases fd with
    | false => simpa [flashRingBufferInitLoop] using g.total_pos
    | true =>
      simp only [flashRingBufferInitLoop, if_pos rfl]
      exact mul_sector_lt g (Nat.mod_lt _ (numSectors_pos g))
  | succ count ihc =>
    intro sector fd ld hcnt
    rw [flashRingBufferInitLoop]
    split
    · exact mul_sector_lt g (by omega)
    · exact ihc _ _ _ (by omega)

lemma flashRingBufferInitLoop_allEmpty (g : Geo) (sample : Nat → List Nat) :
    ∀ count sector ld,
      (∀ k, sector ≤ k → k < sector + count → sectorIsEmpty sample k = true) →
      flashRingBufferInitLoop g sample count sector false ld = 0 := by
  intro count
  induction count with
  | zero =>
    intro sector ld _
    simp [flashRingBufferInitLoop]
  | succ count ihc =>
    intro sector ld h
    have hse : sectorIsEmpty sample sector = true :=
      h sector (Nat.le_refl _) (by omega)
    rw [flashRingBufferInitLoop]
    simp only [hse]
    simp only [Bool.not_true, Bool.or_false, Bool.false_and, Bool.and_true, if_pos rfl]
    rw [if_neg (by simp)]
    exact ihc (sector + 1) ld (fun k h1 h2 => h k (by omega) (by omega))

lemma flashRingBufferInitLoop_firstErased (g : Geo) (sample : Nat → List Nat)
    (j : Nat) (hje : sectorIsEmpty sample j = true)
    (hjw : ∃ i, i < j ∧ sectorWritten sample i = true)
    (hmin : ∀ j2, j2 < j → sectorIsEmpty sample j2 = true →
      ¬∃ i, i < j2 ∧ sectorWritten sample i = true) :
    ∀ count sector fd ld,
      j < sector + count →
      sector ≤ j →
      (fd = true ↔ ∃ i, i < sector ∧ sectorWritten sample i = true) →
      flashRingBufferInitLoop g sample count sector fd ld = j * g.sectorSize := by
  intro count
  induction count with
  | zero =>
    intro sector fd ld h1 h2 _
    omega
  | succ count ihc =>
    intro sector fd ld h1 h2 hiff
    by_cases hsj : sector = j
    · subst hsj
      have hfd : fd = true := by
        rw [hiff]
        exact hjw
      subst hfd
      rw [flashRingBufferInitLoop]
      simp [hje]
    · have hlt : sector < j := by omega
      by_cases hse : sectorIsEmpty sample sector = true
      · have hfd : fd = false := by
          cases hfd2 : fd with
          | false => rfl
          | true =>
            exact absurd (hiff.mp hfd2) (hmin sector hlt hse)
        subst hfd
        rw [flashRingBufferInitLoop]
        simp only [hse]
        simp only [Bool.not_true, Bool.or_false, Bool.false_and, Bool.and_true,
          if_pos rfl]
        rw [if_neg (by simp)]
        refine ihc (sector + 1) false ld (by omega) (by omega) ?_
        simp only [Bool.false_eq_true, false_iff]
        intro ⟨i, hi, hwi⟩
        rcases Nat.lt_succ_iff_lt_or_eq.mp hi with hi2 | hi2
        · exact absurd (hiff.mpr ⟨i, hi2, hwi⟩) (by simp)
        · subst hi2
          rw [sectorWritten, hse] at hwi
          simp at hwi
      · rw [flashRingBufferInitLoop]
        simp only [Bool.not_eq_true] at hse
        simp only [hse]
        rw [if_neg (by simp)]
        refine ihc (sector + 1) _ _ (by omega) (by omega) ?_
        simp only [Bool.not_false, Bool.or_true, true_iff]
        exact ⟨sector, by omega, by simp [sectorWritten, hse]⟩

lemma flashRingBufferInitLoop_fullWrap (g : Geo) (sample : Nat → List Nat)
    (hex : ∃ i, i < g.totalSize / g.sectorSize ∧ sectorWritten sample i = true)
    (hnoe : ¬∃ j, j < g.totalSize / g.sectorSize ∧ sectorIsEmpty sample j = true
      ∧ ∃ i, i < j ∧ sectorWritten sample i = true) :
    ∀ count sector fd ld,
      sector + count = g.totalSize / g.sectorSize →
      (fd = true ↔ ∃ i, i < sector ∧ sectorWritten sample i = true) →
      (fd = true → ld = lastWrittenBelow sample sector) →
      flashRingBufferInitLoop g sample count sector fd ld
        = ((lastWrittenBelow sample (g.totalSize / g.sectorSize) + 1)
            % (g.totalSize / g.sectorSize)) * g.sectorSize := by
  intro count
  induction count with
  | zero =>
    intro sector fd ld hcnt hiff hld
    have hsec : sector = g.totalSize / g.sectorSize := by omega
    subst hsec
    have hfd : fd = true := hiff.mpr hex
    subst hfd
    rw [hld rfl, flashRingBufferInitLoop, if_pos rfl]
  | succ count ihc =>
    intro sector fd ld hcnt hiff hld
    have hlt : sector < g.totalSize / g.sectorSize := by omega
    by_cases hse : sectorIsEmpty sample sector = true
    · have hfd : fd = false := by
        cases hfd2 : fd with
        | false => rfl
        | true =>
          exact absurd ⟨sector, hlt, hse, hiff.mp hfd2⟩ hnoe
      subst hfd
      rw [flashRingBufferInitLoop]
      simp only [hse]
      simp only [Bool.not_true, Bool.or_false, Bool.false_and, Bool.and_true,
        if_pos rfl]
      rw [if_neg (by simp)]
      refine ihc (sector + 1) false ld (by omega) ?_ (by simp)
      simp only [Bool.false_eq_true, false_iff]
      intro ⟨i, hi, hwi⟩
      rcases Nat.lt_succ_iff_lt_or_eq.mp hi with hi2 | hi2
      · exact absurd (hiff.mpr ⟨i, hi2, hwi⟩) (by simp)
      · subst hi2
        rw [sectorWritten, hse] at hwi
        simp at hwi
    · rw [flashRingBufferInitLoop]
      simp only [Bool.not_eq_true] at hse
      simp only [hse]
      rw [if_neg (by simp)]
      refine ihc (sector + 1) _ _ (by omega) ?_ ?_
      · simp only [Bool.not_false, Bool.or_true, true_iff]
        exact ⟨sector, by omega, by simp [sectorWritten, hse]⟩
      · intro _
        have : sectorWritten sample sector = true := by simp [sectorWritten, hse]
        simp [lastWrittenBelow, this]

lemma ringWriteLoop_zero (g : Geo) (devOk : Nat → Bool) :
    ∀ fuel a n, ringWriteLoop g devOk fuel a 0 n = ⟨true, a, n, []⟩ := by
  intro fuel a n
  cases fuel <;> simp [ringWriteLoop]

lemma flashRingBufferWrite_main (g : Geo) (devOk : Nat → Bool) (s : EngineState)
    (L : Nat) (hfi : s.flashInitialized = true) (hri : s.ringBufferInitialized = true)
    (hp : s.ringBufferPaused = false) (hL : L ≠ 0) :
    flashRingBufferWrite g devOk s L
      = ⟨(ringWriteLoop g devOk L s.ringBufferWriteAddress L 0).ok,
         { s with ringBufferWriteAddress
            := (ringWriteLoop g devOk L s.ringBufferWriteAddress L 0).addr },
         (ringWriteLoop g devOk L s.ringBufferWriteAddress L 0).trace⟩ := by
  simp [flashRingBufferWrite, hfi, hri, hp, hL]

lemma flashRingBufferWrite_flags (g : Geo) (devOk : Nat → Bool) (s : EngineState)
    (L : Nat) :
    (flashRingBufferWrite g devOk s L).state.flashInitialized = s.flashInitialized
    ∧ (flashRingBufferWrite g devOk s L).state.ringBufferInitialized
        = s.ringBufferInitialized
    ∧ (flashRingBufferWrite g devOk s L).state.ringBufferPaused
        = s.ringBufferPaused := by
  rw [flashRingBufferWrite]
  split
  · exact ⟨rfl, rfl, rfl⟩
  · split
    · exact ⟨rfl, rfl, rfl⟩
    · split
      · exact ⟨rfl, rfl, rfl⟩
      · exact ⟨rfl, rfl, rfl⟩

lemma flashRingBufferWrite_ok (g : Geo) (s : EngineState) (L : Nat)
    (hfi : s.flashInitialized = true) (hri : s.ringBufferInitialized = true)
    (hp : s.ringBufferPaused = false) (hL : L ≠ 0)
    (ha : s.ringBufferWriteAddress < g.totalSize) :
    (flashRingBufferWrite g devAllOk s L).ok = true
    ∧ (flashRingBufferWrite g devAllOk s L).state.ringBufferWriteAddress
        = (s.ringBufferWriteAddress + L) % g.totalSize := by
  obtain ⟨h1, h2⟩ := ringWriteLoop_allOk g L s.ringBufferWriteAddress L 0
    (Nat.le_refl L) ha
  rw [flashRingBufferWrite_main g devAllOk s L hfi hri hp hL]
  exact ⟨h1, h2⟩

lemma appendSeq_state (g : Geo) :
    ∀ (ls : List Nat) (s : EngineState), (∀ l ∈ ls, l ≠ 0) →
      s.flashInitialized = true → s.ringBufferInitialized = true →
      s.ringBufferPaused = false → s.ringBufferWriteAddress < g.totalSize →
      (appendSeq g s ls).flashInitialized = true
      ∧ (appendSeq g s ls).ringBufferInitialized = true
      ∧ (appendSeq g s ls).ringBufferPaused = false
      ∧ (appendSeq g s ls).ringBufferWriteAddress
          = (s.ringBufferWriteAddress + ls.sum) % g.totalSize
      ∧ (appendSeq g s ls).ringBufferWriteAddress < g.totalSize := by
  intro ls
  induction ls with
  | nil =>
    intro s _ hfi hri hp ha
    refine ⟨hfi, hri, hp, ?_, ha⟩
    simp [appendSeq, Nat.mod_eq_of_lt ha]
  | cons l ls ihl =>
    intro s hpos hfi hri hp ha
    have hl : l ≠ 0 := hpos l (List.mem_cons_self _ _)
    obtain ⟨hok, haddr⟩ := flashRingBufferWrite_ok g s l hfi hri hp hl ha
    obtain ⟨f1, f2, f3⟩ := flashRingBufferWrite_flags g devAllOk s l
    have ha2 : (flashRingBufferWrite g devAllOk s l).state.ringBufferWriteAddress
        < g.totalSize := by
      rw [haddr]
      exact Nat.mod_lt _ g.total_pos
    obtain ⟨g1, g2, g3, g4, g5⟩ := ihl (flashRingBufferWrite g devAllOk s l).state
      (fun x hx => hpos x (List.mem_cons_of_mem _ hx))
      (by rw [f1, hfi]) (by rw [f2, hri]) (by rw [f3, hp]) ha2
    refine ⟨g1, g2, g3, ?_, g5⟩
    show (appendSeq g (flashRingBufferWrite g devAllOk s l).state ls).ringBufferWriteAddress = _
    rw [g4, haddr, List.sum_cons, Nat.mod_add_mod, Nat.add_assoc]

/-- Claim C1 (amended): during a single append with a working device, from an
initialized, unpaused engine at cursor p < C with non-empty data of
length L at most C - (p mod B) — so the append does not wrap back into
the block it started in — every block the cursor newly enters (its
offsetInBlock is 0 when the write reaches it) is erased exactly once,
and that erase is issued strictly before any write into that block. -/
theorem claim_C1 (g : Geo) (s : EngineState) (L : Nat)
    (hfi : s.flashInitialized = true) (hri : s.ringBufferInitialized = true)
    (hp : s.ringBufferPaused = false) (hL : L ≠ 0)
    (ha : s.ringBufferWriteAddress < g.totalSize)
    (hnw : L ≤ g.totalSize - s.ringBufferWriteAddress % g.sectorSize)
    (b : Nat) (hb : b ∈ enteredBlocks g s.ringBufferWriteAddress L) :
    eraseCount g b (flashRingBufferWrite g devAllOk s L).trace = 1
    ∧ erasedBeforeWritten g b (flashRingBufferWrite g devAllOk s L).trace = true := by
  rw [flashRingBufferWrite_main g devAllOk s L hfi hri hp hL]
  exact ringWriteLoop_entered g L s.ringBufferWriteAddress L 0 ha hnw b hb

/-- Claim C1 witness: toy geometry (C = 16, B = 4), append of 8 bytes at cursor 0;
block 1 is newly entered, erased exactly once, erase before its write. -/
theorem claim_C1_witness :
    eraseCount toyGeo 1
      (flashRingBufferWrite toyGeo devAllOk ⟨true, 0, true, false⟩ 8).trace = 1
    ∧ erasedBeforeWritten toyGeo 1
      (flashRingBufferWrite toyGeo devAllOk ⟨true, 0, true, false⟩ 8).trace = true :=
  claim_C1 toyGeo ⟨true, 0, true, false⟩ 8 rfl rfl rfl (by decide) (by decide)
    (by decide) 1 (by decide)

/-- Claim C1 counterexample: toy geometry (C = 16, B = 4), initialized unpaused
engine at cursor 0, append of 17 bytes (one byte more than the capacity):
block 0 is newly entered (its offsetInBlock is 0 when the write reaches
it), yet it is erased twice — refuting "erased exactly once"; the second
erase is also issued after data was already written into block 0. -/
theorem claim_C1_counterexample :
    (⟨true, 0, true, false⟩ : EngineState).flashInitialized = true
    ∧ (⟨true, 0, true, false⟩ : EngineState).ringBufferInitialized = true
    ∧ (⟨true, 0, true, false⟩ : EngineState).ringBufferPaused = false
    ∧ (17 : Nat) ≠ 0
    ∧ 0 ∈ enteredBlocks toyGeo 0 17
    ∧ eraseCount toyGeo 0
        (flashRingBufferWrite toyGeo devAllOk ⟨true, 0, true, false⟩ 17).trace = 2 :=
  ⟨rfl, rfl, rfl, by decide, by decide, by decide⟩

/-- Claim C2: the scan-based initialization computes the cursor exactly as the
claim states: 0 when every sampled block is erased; the start address of
the first erased block that follows some written block, when one exists;
otherwise ((last_written_block_index + 1) mod total_blocks) * B. -/
theorem claim_C2 (g : Geo) (sample : Nat → List Nat) (s : EngineState)
    (hfi : s.flashInitialized = true) :
    ((∀ k, k < g.totalSize / g.sectorSize → sectorIsEmpty sample k = true) →
      (flashRingBufferInit g sample s).2.ringBufferWriteAddress = 0)
    ∧ (∀ j, j < g.totalSize / g.sectorSize → sectorIsEmpty sample j = true →
        (∃ i, i < j ∧ sectorWritten sample i = true) →
        (∀ j2, j2 < j → sectorIsEmpty sample j2 = true →
          ¬∃ i, i < j2 ∧ sectorWritten sample i = true) →
        (flashRingBufferInit g sample s).2.ringBufferWriteAddress
          = j * g.sectorSize)
    ∧ ((∃ i, i < g.totalSize / g.sectorSize ∧ sectorWritten sample i = true) →
        (¬∃ j, j < g.totalSize / g.sectorSize ∧ sectorIsEmpty sample j = true
          ∧ ∃ i, i < j ∧ sectorWritten sample i = true) →
        (flashRingBufferInit g sample s).2.ringBufferWriteAddress
          = ((lastWrittenBelow sample (g.totalSize / g.sectorSize) + 1)
              % (g.totalSize / g.sectorSize)) * g.sectorSize) := by
  have hinit : (flashRingBufferInit g sample s).2.ringBufferWriteAddress
      = flashRingBufferInitLoop g sample (g.totalSize / g.sectorSize) 0 false 0 := by
    simp [flashRingBufferInit, hfi]
  refine ⟨?_, ?_, ?_⟩
  · intro hall
    rw [hinit]
    exact flashRingBufferInitLoop_allEmpty g sample _ 0 0
      (fun k _ h2 => hall k (by omega))
  · intro j hj hje hjw hmin
    rw [hinit]
    exact flashRingBufferInitLoop_firstErased g sample j hje hjw hmin _ 0 false 0
      (by omega) (Nat.zero_le j) (by simp)
  · intro hex hnoe
    rw [hinit]
    exact flashRingBufferInitLoop_fullWrap g sample hex hnoe _ 0 false 0
      (by omega) (by simp) (by simp)

/-- Claim C2 witness: toy device with blocks 0..2 written and block 3 erased;
the scan sets the cursor to 12, the start of block 3. -/
theorem claim_C2_witness :
    (flashRingBufferInit toyGeo (fun k => if k < 3 then [0] else [255])
      ⟨true, 5, false, false⟩).2.ringBufferWriteAddress = 12 := by
  have h := (claim_C2 toyGeo (fun k => if k < 3 then [0] else [255])
    ⟨true, 5, false, false⟩ rfl).2.1 3 (by decide) (by decide)
    ⟨0, by decide, by decide⟩ (by decide)
  rw [h]
  decide

/-- Claim C3: a sequence of successful appends leaves the cursor at
(p + sum of lengths) mod C, strictly below C — the cursor wraps to 0
exactly when it reaches C and is never left at or above C; if the
sequence has brought the cursor to 0, the next append issues an erase of
block 0 as its very first chip operation, before any write; in the toy
instance (C = 16, B = 4) four 4-byte appends after reset leave the
cursor at 0, and a fifth append erases block 0 again (its trace is
exactly erase block 0 then write 4 bytes at 0). -/
theorem claim_C3 (g : Geo) (ls : List Nat) (L : Nat) (s : EngineState)
    (hfi : s.flashInitialized = true) (hri : s.ringBufferInitialized = true)
    (hp : s.ringBufferPaused = false)
    (ha : s.ringBufferWriteAddress < g.totalSize)
    (hpos : ∀ l ∈ ls, l ≠ 0) (hL : L ≠ 0) :
    ((appendSeq g s ls).ringBufferWriteAddress
        = (s.ringBufferWriteAddress + ls.sum) % g.totalSize
      ∧ (appendSeq g s ls).ringBufferWriteAddress < g.totalSize)
    ∧ ((appendSeq g s ls).ringBufferWriteAddress = 0 →
        ∃ t, (flashRingBufferWrite g devAllOk (appendSeq g s ls) L).trace
          = FlashOp.eraseSector 0 :: t)
    ∧ ((appendSeq toyGeo (flashRingBufferReset ⟨true, 0, false, false⟩)
          [4, 4, 4, 4]).ringBufferWriteAddress = 0
      ∧ (flashRingBufferWrite toyGeo devAllOk
          (appendSeq toyGeo (flashRingBufferReset ⟨true, 0, false, false⟩)
            [4, 4, 4, 4]) 4).trace
          = [FlashOp.eraseSector 0, FlashOp.write 0 4]) := by
  obtain ⟨g1, g2, g3, g4, g5⟩ := appendSeq_state g ls s hpos hfi hri hp ha
  refine ⟨⟨g4, g5⟩, ?_, by decide, by decide⟩
  intro h0
  rw [flashRingBufferWrite_main g devAllOk _ L g1 g2 g3 hL, h0]
  obtain ⟨L', rfl⟩ : ∃ k, L = k + 1 := ⟨L - 1, by omega⟩
  rw [ringWriteLoop_entry_ok g devAllOk g.total_pos hL (Nat.zero_mod g.sectorSize)
    (devAllOk_eq 0) (devAllOk_eq 1) rfl rfl]
  exact ⟨_, rfl⟩

/-- Claim C3 witness: toy instance, four 4-byte appends from reset; the general
part of the claim gives cursor (0 + 16) mod 16 = 0. -/
theorem claim_C3_witness :
    (appendSeq toyGeo ⟨true, 0, true, false⟩ [4, 4, 4, 4]).ringBufferWriteAddress
      = ((⟨true, 0, true, false⟩ : EngineState).ringBufferWriteAddress
          + [4, 4, 4, 4].sum) % toyGeo.totalSize :=
  ((claim_C3 toyGeo [4, 4, 4, 4] 4 ⟨true, 0, true, false⟩ rfl rfl rfl
    (by decide) (by decide) (by decide)).1).1

/-- Claim C4: append fails immediately, issues no chip operation and leaves the
whole engine state (cursor included) unchanged when the engine is not
initialized (driver flag or ring flag down), when the pause flag is set,
or when the data is empty. -/
theorem claim_C4 (g : Geo) (devOk : Nat → Bool) (s : EngineState) (L : Nat) :
    (¬(s.flashInitialized = true ∧ s.ringBufferInitialized = true) →
      flashRingBufferWrite g devOk s L = ⟨false, s, []⟩)
    ∧ (s.ringBufferPaused = true → flashRingBufferWrite g devOk s L = ⟨false, s, []⟩)
    ∧ (L = 0 → flashRingBufferWrite g devOk s L = ⟨false, s, []⟩) := by
  refine ⟨?_, ?_, ?_⟩
  · intro h
    cases hfi : s.flashInitialized <;> cases hri : s.ringBufferInitialized <;>
      simp_all [flashRingBufferWrite]
  · intro h
    rw [flashRingBufferWrite]
    by_cases hin : (!s.flashInitialized || !s.ringBufferInitialized) = true
    · rw [if_pos hin]
    · rw [if_neg hin, if_pos h]
  · intro h
    subst h
    rw [flashRingBufferWrite]
    by_cases hin : (!s.flashInitialized || !s.ringBufferInitialized) = true
    · rw [if_pos hin]
    · rw [if_neg hin]
      by_cases hpp : s.ringBufferPaused = true
      · rw [if_pos hpp]
      · rw [if_neg hpp, if_pos rfl]

/-- Claim C4 witness: a paused engine rejects a 4-byte append with no state
change and no chip operation. -/
theorem claim_C4_witness :
    flashRingBufferWrite toyGeo devAllOk ⟨true, 3, true, true⟩ 4
      = ⟨false, ⟨true, 3, true, true⟩, []⟩ :=
  (claim_C4 toyGeo devAllOk ⟨true, 3, true, true⟩ 4).2.1 rfl

/-- Claim C5: setPosition fails (returning the out-of-bounds error and leaving
the state unchanged) exactly when the address is at least C; for any
address below C it succeeds, stores the address aligned down to a block
boundary (so getPosition returns floor(addr / B) * B), sets the
initialized flag, and issues no chip operation. -/
theorem claim_C5 (g : Geo) (s : EngineState) (addr : Nat) :
    ((flashRingBufferSetPosition g s addr).1 = false ↔ g.totalSize ≤ addr)
    ∧ (g.totalSize ≤ addr → flashRingBufferSetPosition g s addr = (false, s, []))
    ∧ (addr < g.totalSize →
        (flashRingBufferSetPosition g s addr).1 = true
        ∧ (flashRingBufferSetPosition g s addr).2.1.ringBufferWriteAddress
            = addr / g.sectorSize * g.sectorSize
        ∧ flashRingBufferGetPosition (flashRingBufferSetPosition g s addr).2.1
            = addr / g.sectorSize * g.sectorSize
        ∧ (flashRingBufferSetPosition g s addr).2.1.ringBufferInitialized = true
        ∧ (flashRingBufferSetPosition g s addr).2.2 = []) := by
  by_cases h : g.totalSize ≤ addr
  · refine ⟨by simp [flashRingBufferSetPosition, h], ?_, ?_⟩
    · intro _
      simp [flashRingBufferSetPosition, h]
    · intro h2
      omega
  · refine ⟨by simp [flashRingBufferSetPosition, h], ?_, ?_⟩
    · intro h2
      omega
    · intro _
      simp [flashRingBufferSetPosition, flashRingBufferGetPosition, h]

/-- Claim C5 witness: toy geometry, setPosition 6 aligns the cursor down to
6 / 4 * 4 = 4. -/
theorem claim_C5_witness :
    (flashRingBufferSetPosition toyGeo ⟨false, 0, false, false⟩ 6).2.1.ringBufferWriteAddress
      = 6 / toyGeo.sectorSize * toyGeo.sectorSize :=
  ((claim_C5 toyGeo ⟨false, 0, false, false⟩ 6).2.2 (by decide)).2.1

/-- Claim C6: the append is not atomic — when a chip erase or write fails
partway through an append that passed validation, the call reports
failure (the source collapses every device failure to the same boolean)
and the cursor is left advanced, modulo wraparound, exactly past the
bytes that were successfully written before the failure; nothing is
rolled back. -/
theorem claim_C6 (g : Geo) (devOk : Nat → Bool) (s : EngineState) (L : Nat)
    (hfi : s.flashInitialized = true) (hri : s.ringBufferInitialized = true)
    (hp : s.ringBufferPaused = false) (hL : L ≠ 0)
    (ha : s.ringBufferWriteAddress < g.totalSize)
    (hfail : (flashRingBufferWrite g devOk s L).ok = false) :
    (flashRingBufferWrite g devOk s L).state.ringBufferWriteAddress
      = (s.ringBufferWriteAddress
          + succWrittenBytes devOk (flashRingBufferWrite g devOk s L).trace 0)
        % g.totalSize := by
  rw [flashRingBufferWrite_main g devOk s L hfi hri hp hL]
  exact (ringWriteLoop_addr g devOk L s.ringBufferWriteAddress L 0 ha).1

/-- Claim C6 witness: toy geometry, 16-byte append whose third chip operation
(the erase of block 1) fails: the append reports failure and the cursor
sits at 0 + 4 successfully written bytes. -/
theorem claim_C6_witness :
    (flashRingBufferWrite toyGeo failAfterTwo ⟨true, 0, true, false⟩ 16).state.ringBufferWriteAddress
      = ((⟨true, 0, true, false⟩ : EngineState).ringBufferWriteAddress
          + succWrittenBytes failAfterTwo
              (flashRingBufferWrite toyGeo failAfterTwo ⟨true, 0, true, false⟩ 16).trace 0)
        % toyGeo.totalSize :=
  claim_C6 toyGeo failAfterTwo ⟨true, 0, true, false⟩ 16 rfl rfl rfl
    (by decide) (by decide) (by decide)

/-- Claim C7: starting from a valid cursor (below C), every engine operation
leaves the cursor valid: append (any oracle, success or failure),
setPosition (both outcomes), reset, the scan-based initialization (both
outcomes), pause, resume and getPosition (which do not move the cursor);
moreover the cursor is block-aligned right after reset and after a
successful setPosition. -/
theorem claim_C7 (g : Geo) (devOk : Nat → Bool) (sample : Nat → List Nat)
    (s : EngineState) (L addr : Nat)
    (ha : s.ringBufferWriteAddress < g.totalSize) :
    ((flashRingBufferWrite g devOk s L).state.ringBufferWriteAddress < g.totalSize)
    ∧ ((flashRingBufferSetPosition g s addr).2.1.ringBufferWriteAddress < g.totalSize
      ∧ ((flashRingBufferSetPosition g s addr).1 = true →
          (flashRingBufferSetPosition g s addr).2.1.ringBufferWriteAddress
            % g.sectorSize = 0))
    ∧ ((flashRingBufferReset s).ringBufferWriteAddress < g.totalSize
      ∧ (flashRingBufferReset s).ringBufferWriteAddress % g.sectorSize = 0)
    ∧ ((flashRingBufferInit g sample s).2.ringBufferWriteAddress < g.totalSize)
    ∧ ((flashRingBufferPause s).ringBufferWriteAddress = s.ringBufferWriteAddress
      ∧ (flashRingBufferResume s).ringBufferWriteAddress = s.ringBufferWriteAddress
      ∧ flashRingBufferGetPosition s = s.ringBufferWriteAddress) := by
  refine ⟨?_, ⟨?_, ?_⟩, ⟨?_, ?_⟩, ?_, rfl, rfl, rfl⟩
  · rw [flashRingBufferWrite]
    by_cases hin : (!s.flashInitialized || !s.ringBufferInitialized) = true
    · rw [if_pos hin]
      exact ha
    · rw [if_neg hin]
      by_cases hpp : s.ringBufferPaused = true
      · rw [if_pos hpp]
        exact ha
      · rw [if_neg hpp]
        by_cases hLz : L = 0
        · rw [if_pos hLz]
          exact ha
        · rw [if_neg hLz]
          show (ringWriteLoop g devOk L s.ringBufferWriteAddress L 0).addr < g.totalSize
          rw [(ringWriteLoop_addr g devOk L s.ringBufferWriteAddress L 0 ha).1]
          exact Nat.mod_lt _ g.total_pos
  · rw [flashRingBufferSetPosition]
    by_cases h : g.totalSize ≤ addr
    · rw [if_pos h]
      exact ha
    · rw [if_neg h]
      exact Nat.lt_of_le_of_lt (Nat.div_mul_le_self addr g.sectorSize) (by omega)
  · rw [flashRingBufferSetPosition]
    by_cases h : g.totalSize ≤ addr
    · rw [if_pos h]
      intro hfalse
      cases hfalse
    · rw [if_neg h]
      intro _
      exact Nat.mul_mod_left _ _
  · exact g.total_pos
  · exact Nat.zero_mod _
  · rw [flashRingBufferInit]
    by_cases h : s.flashInitialized = true
    · simp only [h, Bool.not_true, Bool.false_eq_true, if_false]
      exact flashRingBufferInitLoop_lt g sample _ 0 false 0 (by omega)
    · have h2 : s.flashInitialized = false := by
        cases hv : s.flashInitialized
        · rfl
        · exact absurd hv h
      simp only [h2, Bool.not_false, if_true]
      exact ha

/-- Claim C7 witness: toy geometry, a 5-byte append from cursor 7 leaves the
cursor valid. -/
theorem claim_C7_witness :
    (flashRingBufferWrite toyGeo devAllOk ⟨true, 7, true, false⟩ 5).state.ringBufferWriteAddress
      < toyGeo.totalSize :=
  (claim_C7 toyGeo devAllOk (fun _ => []) ⟨true, 7, true, false⟩ 5 3 (by decide)).1

/-- Claim C8: an append that starts strictly inside a block (the cursor is not
at a block boundary — from a boundary any append first enters the new
block, as the spec's own scenario shows) and whose length keeps it from
crossing past the end of that block issues zero erase calls; its trace
is in fact the single data write. -/
theorem claim_C8 (g : Geo) (s : EngineState) (L : Nat)
    (hfi : s.flashInitialized = true) (hri : s.ringBufferInitialized = true)
    (hp : s.ringBufferPaused = false) (hL : L ≠ 0)
    (ha : s.ringBufferWriteAddress < g.totalSize)
    (hoff : s.ringBufferWriteAddress % g.sectorSize ≠ 0)
    (hfit : L ≤ g.sectorSize - s.ringBufferWriteAddress % g.sectorSize) :
    eraseCalls (flashRingBufferWrite g devAllOk s L).trace = 0
    ∧ (flashRingBufferWrite g devAllOk s L).trace
        = [FlashOp.write s.ringBufferWriteAddress L] := by
  rw [flashRingBufferWrite_main g devAllOk s L hfi hri hp hL]
  obtain ⟨L', rfl⟩ : ∃ k, L = k + 1 := ⟨L - 1, by omega⟩
  have hmin : min (L' + 1)
      (g.sectorSize - s.ringBufferWriteAddress % g.sectorSize) = L' + 1 :=
    Nat.min_eq_left hfit
  rw [ringWriteLoop_mid_ok g devAllOk ha hL hoff (devAllOk_eq 0) rfl rfl]
  rw [hmin, Nat.sub_self, ringWriteLoop_zero]
  exact ⟨rfl, rfl⟩

/-- Claim C8 witness: toy geometry, cursor 5 (offset 1 in block 1), 3-byte
append up to the end of block 1: no erase is issued. -/
theorem claim_C8_witness :
    eraseCalls (flashRingBufferWrite toyGeo devAllOk ⟨true, 5, true, false⟩ 3).trace = 0 :=
  (claim_C8 toyGeo ⟨true, 5, true, false⟩ 3 rfl rfl rfl (by decide) (by decide)
    (by decide) (by decide)).1

/-- Claim C9: a successful append of L bytes from cursor p (any L ≥ 1, even
beyond the capacity) succeeds and moves the cursor to (p + L) mod C, and
appending L1 then L2 bytes leaves the same cursor as appending L1 + L2
bytes at once. -/
theorem claim_C9 (g : Geo) (s : EngineState) (L1 L2 : Nat)
    (hfi : s.flashInitialized = true) (hri : s.ringBufferInitialized = true)
    (hp : s.ringBufferPaused = false) (h1 : L1 ≠ 0) (h2 : L2 ≠ 0)
    (ha : s.ringBufferWriteAddress < g.totalSize) :
    (flashRingBufferWrite g devAllOk s L1).ok = true
    ∧ (flashRingBufferWrite g devAllOk s L1).state.ringBufferWriteAddress
        = (s.ringBufferWriteAddress + L1) % g.totalSize
    ∧ (flashRingBufferWrite g devAllOk
        (flashRingBufferWrite g devAllOk s L1).state L2).state.ringBufferWriteAddress
        = (flashRingBufferWrite g devAllOk s (L1 + L2)).state.ringBufferWriteAddress := by
  obtain ⟨hok, haddr⟩ := flashRingBufferWrite_ok g s L1 hfi hri hp h1 ha
  obtain ⟨f1, f2, f3⟩ := flashRingBufferWrite_flags g devAllOk s L1
  have ha2 : (flashRingBufferWrite g devAllOk s L1).state.ringBufferWriteAddress
      < g.totalSize := by
    rw [haddr]
    exact Nat.mod_lt _ g.total_pos
  obtain ⟨hok2, haddr2⟩ := flashRingBufferWrite_ok g
    (flashRingBufferWrite g devAllOk s L1).state L2
    (by rw [f1, hfi]) (by rw [f2, hri]) (by rw [f3, hp]) h2 ha2
  obtain ⟨hok3, haddr3⟩ := flashRingBufferWrite_ok g s (L1 + L2) hfi hri hp
    (by omega) ha
  refine ⟨hok, haddr, ?_⟩
  rw [haddr2, haddr, haddr3, Nat.mod_add_mod, Nat.add_assoc]

/-- Claim C9 witness: toy geometry, cursor 14, appends of 5 then 7 bytes: the
first succeeds ending at (14 + 5) mod 16 = 3, and chaining equals the
single 12-byte append. -/
theorem claim_C9_witness :
    (flashRingBufferWrite toyGeo devAllOk ⟨true, 14, true, false⟩ 5).ok = true
    ∧ (flashRingBufferWrite toyGeo devAllOk ⟨true, 14, true, false⟩ 5).state.ringBufferWriteAddress
        = ((⟨true, 14, true, false⟩ : EngineState).ringBufferWriteAddress + 5) % toyGeo.totalSize
    ∧ (flashRingBufferWrite toyGeo devAllOk
        (flashRingBufferWrite toyGeo devAllOk ⟨true, 14, true, false⟩ 5).state 7).state.ringBufferWriteAddress
        = (flashRingBufferWrite toyGeo devAllOk ⟨true, 14, true, false⟩ (5 + 7)).state.ringBufferWriteAddress :=
  claim_C9 toyGeo ⟨true, 14, true, false⟩ 5 7 rfl rfl rfl (by decide) (by decide)
    (by decide)

/-- Claim C10: a successful scan-based initialization reports success and
always leaves the cursor block-aligned, whatever the device contents
(all three scan outcomes are covered by the universal statement). -/
theorem claim_C10 (g : Geo) (sample : Nat → List Nat) (s : EngineState)
    (hfi : s.flashInitialized = true) :
    (flashRingBufferInit g sample s).1 = true
    ∧ (flashRingBufferInit g sample s).2.ringBufferWriteAddress % g.sectorSize = 0 := by
  constructor
  · simp [flashRingBufferInit, hfi]
  · have hd := flashRingBufferInitLoop_dvd g sample (g.totalSize / g.sectorSize) 0 false 0
    obtain ⟨k, hk⟩ := hd
    simp only [flashRingBufferInit, hfi, Bool.not_true, Bool.false_eq_true, if_false]
    rw [hk, Nat.mul_mod_right]

/-- Claim C10 witness: toy geometry, fully written device: the computed cursor
is block-aligned. -/
theorem claim_C10_witness :
    (flashRingBufferInit toyGeo (fun _ => [0])
      ⟨true, 3, false, false⟩).2.ringBufferWriteAddress % toyGeo.sectorSize = 0 :=
  (claim_C10 toyGeo (fun _ => [0]) ⟨true, 3, false, false⟩ rfl).2
